import Mathlib

/-!
Verification of the in-memory key-value store `MemoryDB`
(src/mem_db/src/lib.rs) against its natural-language specification.

The store holds two independent ordered namespaces (`inner`, the main
namespace, and `aux`), both Rust `BTreeMap<Box<[u8]>, Option<Box<[u8]>>>`,
plus an unused `cache` map and the bound snapshot path `temp`.

Embedding choices:
* byte sequences are `List Nat`, compared byte-lexicographically;
* a `BTreeMap` is an association list sorted strictly by key
  (`SortedMap`), which is the representation invariant every real
  `BTreeMap` satisfies; iteration order is the list order;
* `BTreeMap::range((Included(lower), Excluded(upper)))` panics when
  `lower > upper`; operations built on it return `Option` with `none`
  modelling the panic;
* the Rust `Result` of `ruc` is `Except String`;
* the filesystem is an association list from path to stored state, and
  `bincode` serialize/deserialize is modelled as the identity round
  trip (storing the state value itself); a `Bool` oracle stands for
  success of a fallible file write.
-/

namespace MemDB

/-- Byte strings (`Box<[u8]>` / `Vec<u8>` in the source). -/
abbrev Bytes := List Nat

/-- Strict byte-lexicographic order on byte strings, the `Ord` instance
of `Box<[u8]>` that `BTreeMap` sorts by. -/
def byteLt : Bytes → Bytes → Bool
  | [], [] => false
  | [], _ :: _ => true
  | _ :: _, [] => false
  | a :: as, b :: bs => if a < b then true else if b < a then false else byteLt as bs

/-- `a <= b` in byte-lexicographic order. -/
def byteLe (a b : Bytes) : Bool := !byteLt b a

/-- A `BTreeMap<Box<[u8]>, Option<Box<[u8]>>>` as an association list.
The representation invariant (strictly sorted keys) is `SortedMap`. -/
abbrev Map := List (Bytes × Option Bytes)

/-- A batch of key/optional-value pairs (`KVBatch` in the source). -/
abbrev KVBatch := List (Bytes × Option Bytes)

/-- `BTreeMap::get` (plus clone): first entry with the given key. -/
def mapGet (m : Map) (k : Bytes) : Option (Option Bytes) :=
  match m with
  | [] => none
  | (k0, v0) :: rest => if k0 = k then some v0 else mapGet rest k

/-- `BTreeMap::insert`: place the pair at its sorted position, replacing
an existing entry with the same key. -/
def mapInsert (k : Bytes) (v : Option Bytes) : Map → Map
  | [] => [(k, v)]
  | (k0, v0) :: rest =>
    if byteLt k k0 then (k, v) :: (k0, v0) :: rest
    else if byteLt k0 k then (k0, v0) :: mapInsert k v rest
    else (k, v) :: rest

/-- The `BTreeMap` representation invariant: keys strictly increasing. -/
abbrev SortedMap (m : Map) : Prop :=
  m.Pairwise (fun a b => byteLt a.1 b.1 = true)

/-- The `for (k, v) in kvs { map.insert(k, v) }` loop shared by
`put_batch` and `commit`. -/
def applyBatch (kvs : KVBatch) (m : Map) : Map :=
  match kvs with
  | [] => m
  | (k, v) :: rest => applyBatch rest (mapInsert k v m)

/-- Membership test of the half-open interval `[lower, upper)`. -/
def inRange (lower upper k : Bytes) : Bool := byteLe lower k && byteLt k upper

/-- `map.range((Included(lower), Excluded(upper)))` followed by the
`filter_map` that clones entries and drops tombstones, as in `iter`,
`iter_aux` and `db_all_iterator`. The panic of `BTreeMap::range` when
`lower > upper` is handled by the callers. -/
def rangeList (m : Map) (lower upper : Bytes) : List (Bytes × Bytes) :=
  (m.filter (fun kv => inRange lower upper kv.1)).filterMap
    (fun kv => kv.2.map (fun v => (kv.1, v)))

/-- The `MemoryDB` struct: bound snapshot path, unused `cache`, the main
namespace `inner`, and the auxiliary namespace `aux`. Paths are `Nat`. -/
structure MemoryDB where
  temp : Nat
  cache : Map
  inner : Map
  aux : Map
deriving DecidableEq, Repr

/-- The filesystem: stored snapshot state by path (`bincode` round trip
modelled as the identity, see module docstring). -/
abbrev FS := List (Nat × MemoryDB)

def fsLookup (fs : FS) (p : Nat) : Option MemoryDB :=
  match fs with
  | [] => none
  | (p0, db) :: rest => if p0 = p then some db else fsLookup rest p

/-- `std::fs::write`: replaces the file contents when the write
succeeds (`ioOk`); on failure the filesystem is unchanged and the
`ruc` error is returned. -/
def writeFile (fs : FS) (p : Nat) (db : MemoryDB) (ioOk : Bool) :
    FS × Except String Unit :=
  if ioOk then ((p, db) :: fs.filter (fun e => e.1 ≠ p), .ok ())
  else (fs, .error "write file failure")

/-- `std::fs::remove_file`, result ignored by `destroy`. -/
def removeFile (fs : FS) (p : Nat) : FS :=
  fs.filter (fun e => e.1 ≠ p)

/-- `MemoryDB::new()`: empty store at a time-derived temp path (the
time value stands for the generated path). -/
def new (time : Nat) : MemoryDB :=
  { temp := time, cache := [], inner := [], aux := [] }

/-- `MemoryDB::open(path)`: deserialize the stored state when the file
exists, otherwise an empty store bound to `path`. -/
def openDB (path : Nat) (fs : FS) : Except String MemoryDB :=
  match fsLookup fs path with
  | some db => .ok db
  | none => .ok { temp := path, cache := [], inner := [], aux := [] }

/-- `MemoryDB::destroy()`: best-effort removal of the backing file,
then `cache.clear()` and `inner.clear()` (the source clears only these
two maps). -/
def destroy (db : MemoryDB) (fs : FS) : MemoryDB × FS :=
  ({ db with cache := [], inner := [] }, removeFile fs db.temp)

/-- `MerkleDB::root_hash` for `MemoryDB`: always empty. -/
def root_hash (_db : MemoryDB) : Bytes := []

/-- `MemoryDB::get`: `Ok(inner.get(&k).cloned().flatten())`. -/
def get (db : MemoryDB) (key : Bytes) : Except String (Option Bytes) :=
  .ok ((mapGet db.inner key).join)

/-- `MemoryDB::get_aux`: same against `aux`. -/
def get_aux (db : MemoryDB) (key : Bytes) : Except String (Option Bytes) :=
  .ok ((mapGet db.aux key).join)

/-- `MemoryDB::put_batch`: insert every pair into `inner`, `Ok(())`. -/
def put_batch (db : MemoryDB) (kvs : KVBatch) : MemoryDB × Except String Unit :=
  ({ db with inner := applyBatch kvs db.inner }, .ok ())

inductive IterOrder where
  | Asc
  | Desc
deriving DecidableEq, Repr

/-- `MemoryDB::iter`: range `[lower, upper)` over `inner`, tombstones
dropped; `Desc` is the reversed ascending range. `none` models the
panic of `BTreeMap::range` when `lower > upper`. -/
def iter (db : MemoryDB) (lower upper : Bytes) (order : IterOrder) :
    Option (List (Bytes × Bytes)) :=
  if byteLt upper lower then none
  else some (match order with
    | .Asc => rangeList db.inner lower upper
    | .Desc => (rangeList db.inner lower upper).reverse)

/-- `MemoryDB::iter_aux`: identical against `aux`. -/
def iter_aux (db : MemoryDB) (lower upper : Bytes) (order : IterOrder) :
    Option (List (Bytes × Bytes)) :=
  if byteLt upper lower then none
  else some (match order with
    | .Asc => rangeList db.aux lower upper
    | .Desc => (rangeList db.aux lower upper).reverse)

/-- `MemoryDB::db_all_iterator`: the source sets both `lower` and
`upper` to the literal single byte `b"0"` (48) and takes the range
`[Included(lower), Excluded(upper))` over `inner`. -/
def db_all_iterator (db : MemoryDB) (order : IterOrder) :
    List (Bytes × Bytes) :=
  let lower : Bytes := [48]
  let upper : Bytes := [48]
  match order with
  | .Asc => rangeList db.inner lower upper
  | .Desc => (rangeList db.inner lower upper).reverse

/-- `MemoryDB::commit`: insert the aux batch into `aux`; when `flush`,
serialize and write to the bound path, surfacing a write failure. -/
def commit (db : MemoryDB) (auxKvs : KVBatch) (flush : Bool) (fs : FS)
    (ioOk : Bool) : MemoryDB × FS × Except String Unit :=
  let db2 := { db with aux := applyBatch auxKvs db.aux }
  if flush then
    let wr := writeFile fs db2.temp db2 ioOk
    (db2, wr.fst, wr.snd)
  else (db2, fs, .ok ())

/-- `MemoryDB::snapshot`: serialize the full current state to `path`;
does not touch the store itself. -/
def snapshot (db : MemoryDB) (path : Nat) (fs : FS) (ioOk : Bool) :
    FS × Except String Unit :=
  writeFile fs path db ioOk

/-- `MemoryDB::clean_aux`: `aux.clear()`, `Ok(())`. -/
def clean_aux (db : MemoryDB) : MemoryDB × Except String Unit :=
  ({ db with aux := [] }, .ok ())

/-- The net effect of a batch on one key: value of the last pair whose
key is `k`, if any (specification vocabulary for last-write-wins). -/
def lastWrite (kvs : KVBatch) (k : Bytes) : Option (Option Bytes) :=
  match kvs with
  | [] => none
  | (k0, v0) :: rest =>
    match lastWrite rest k with
    | some v => some v
    | none => if k0 = k then some v0 else none

theorem byteLt_irrefl (a : Bytes) : byteLt a a = false := by
  induction a with
  | nil => rfl
  | cons x xs ih => simp [byteLt, ih]

theorem byteLt_eq_of_not_lt :
    ∀ {a b : Bytes}, byteLt a b = false → byteLt b a = false → a = b := by
  intro a
  induction a with
  | nil =>
    intro b h1 _
    cases b with
    | nil => rfl
    | cons y ys => simp [byteLt] at h1
  | cons x xs ih =>
    intro b h1 h2
    cases b with
    | nil => simp [byteLt] at h2
    | cons y ys =>
      simp only [byteLt] at h1 h2
      by_cases hxy : x < y
      · simp [hxy] at h1
      · by_cases hyx : y < x
        · simp [hyx, hxy] at h2
        · have hx : x = y := Nat.le_antisymm (Nat.not_lt.mp hyx) (Nat.not_lt.mp hxy)
          simp [hxy, hyx] at h1 h2
          exact congrArg₂ List.cons hx (ih h1 h2)

theorem mapGet_insert_self (k : Bytes) (v : Option Bytes) (m : Map) :
    mapGet (mapInsert k v m) k = some v := by
  induction m with
  | nil => simp [mapInsert, mapGet]
  | cons kv rest ih =>
    rcases kv with ⟨k0, v0⟩
    by_cases h1 : byteLt k k0 = true
    · simp [mapInsert, h1, mapGet]
    · by_cases h2 : byteLt k0 k = true
      · have hne : k0 ≠ k := by
          intro he
          rw [he] at h2
          simp [byteLt_irrefl] at h2
        simp [mapInsert, h1, h2, mapGet, hne, ih]
      · simp [mapInsert, h1, h2, mapGet]

theorem mapGet_insert_ne (k k' : Bytes) (v : Option Bytes) (m : Map)
    (hne : k' ≠ k) : mapGet (mapInsert k v m) k' = mapGet m k' := by
  have hne' : k ≠ k' := Ne.symm hne
  induction m with
  | nil => simp [mapInsert, mapGet, hne']
  | cons kv rest ih =>
    rcases kv with ⟨k0, v0⟩
    by_cases h1 : byteLt k k0 = true
    · simp [mapInsert, h1, mapGet, hne']
    · by_cases h2 : byteLt k0 k = true
      · simp only [mapInsert, h1, h2, if_false, if_true, mapGet]
        by_cases h0 : k0 = k'
        · simp [h0]
        · simp [h0, ih]
      · have he : k = k0 :=
          byteLt_eq_of_not_lt (Bool.not_eq_true _ ▸ h1) (Bool.not_eq_true _ ▸ h2)
        subst he
        simp [mapInsert, h1, h2, mapGet, hne']

theorem applyBatch_mapGet (kvs : KVBatch) (m : Map) (k : Bytes) :
    mapGet (applyBatch kvs m) k =
      match lastWrite kvs k with
      | some v => some v
      | none => mapGet m k := by
  induction kvs generalizing m with
  | nil => simp [applyBatch, lastWrite]
  | cons kv rest ih =>
    rcases kv with ⟨k0, v0⟩
    simp only [applyBatch, lastWrite, ih]
    cases hrest : lastWrite rest k with
    | some v => simp
    | none =>
      by_cases h0 : k0 = k
      · subst h0
        simp [mapGet_insert_self]
      · simp [h0, mapGet_insert_ne k0 k v0 m (Ne.symm h0)]

theorem mem_rangeList {m : Map} {lower upper k v} :
    (k, v) ∈ rangeList m lower upper ↔
      ((k, some v) ∈ m ∧ inRange lower upper k = true) := by
  simp only [rangeList, List.mem_filterMap, List.mem_filter, Option.map_eq_some']
  constructor
  · rintro ⟨⟨k0, v0⟩, ⟨hm, hr⟩, w, hv, hw⟩
    cases hw
    exact ⟨hv ▸ hm, hr⟩
  · rintro ⟨hm, hr⟩
    exact ⟨(k, some v), ⟨hm, hr⟩, v, rfl, rfl⟩

theorem rangeList_keys_sublist (m : Map) (lower upper : Bytes) :
    ((rangeList m lower upper).map Prod.fst).Sublist (m.map Prod.fst) := by
  induction m with
  | nil => simp [rangeList]
  | cons kv rest ih =>
    rcases kv with ⟨k0, v0⟩
    by_cases h : inRange lower upper k0 = true
    · cases v0 with
      | none =>
        simp only [rangeList, List.filter_cons, h, if_true, List.filterMap_cons,
          Option.map_none', List.map_cons]
        exact ih.cons _
      | some w =>
        simp only [rangeList, List.filter_cons, h, if_true, List.filterMap_cons,
          Option.map_some', List.map_cons]
        exact ih.cons₂ _
    · simp only [rangeList, List.filter_cons, h, if_false, List.map_cons]
      exact ih.cons _

theorem rangeList_pairwise {m : Map} (hm : SortedMap m) (lower upper : Bytes) :
    (rangeList m lower upper).Pairwise (fun p q => byteLt p.1 q.1 = true) := by
  have h1 : (m.map Prod.fst).Pairwise (fun a b => byteLt a b = true) :=
    List.pairwise_map.mpr hm
  have h2 := h1.sublist (rangeList_keys_sublist m lower upper)
  exact List.pairwise_map.mp h2

theorem mapGet_eq_some_iff {m : Map} (hm : SortedMap m) {k : Bytes}
    {x : Option Bytes} : mapGet m k = some x ↔ (k, x) ∈ m := by
  induction m with
  | nil => simp [mapGet]
  | cons kv rest ih =>
    rcases kv with ⟨k0, v0⟩
    rcases List.pairwise_cons.mp hm with ⟨hhead, htail⟩
    by_cases h0 : k0 = k
    · subst h0
      simp only [mapGet, if_true, List.mem_cons]
      constructor
      · rintro h
        exact Or.inl (by simpa using congrArg (Prod.mk k0) (Option.some.inj h).symm)
      · rintro (h | h)
        · rcases Prod.mk.injEq .. ▸ h with ⟨_, hv⟩
          simp [hv]
        · have := hhead _ h
          simp [byteLt_irrefl] at this
    · simp only [mapGet, h0, if_false, List.mem_cons]
      rw [ih htail]
      constructor
      · exact Or.inr
      · rintro (h | h)
        · rcases Prod.mk.injEq .. ▸ h with ⟨hk, _⟩
          exact absurd hk.symm h0
        · exact h

theorem inRange_self_empty (k s : Bytes) : inRange s s k = false := by
  cases h : byteLt k s <;> simp [inRange, byteLe, h]

theorem rangeList_self_empty (m : Map) (s : Bytes) :
    rangeList m s s = [] := by
  have : m.filter (fun kv => inRange s s kv.1) = [] :=
    List.filter_eq_nil_iff.mpr (fun kv _ => by simp [inRange_self_empty])
  simp [rangeList, this]

theorem removeFile_idem (fs : FS) (p : Nat) :
    removeFile (removeFile fs p) p = removeFile fs p := by
  induction fs with
  | nil => rfl
  | cons e rest ih =>
    by_cases h : e.1 = p <;> simp [removeFile, h] at ih ⊢

/-- Claim C1: `db_all_iterator` is supposed to iterate the whole main
namespace, but the source sets both bounds of the range to the literal
byte string `b"0"`, so the range `[b"0", b"0")` is empty and the
iterator yields nothing for every store state and order. -/
theorem db_all_iterator_always_empty (db : MemoryDB) (order : IterOrder) :
    db_all_iterator db order = [] := by
  cases order <;> simp [db_all_iterator, rangeList_self_empty]

/-- Claim C2 (counterexample): `destroy` clears only `cache` and
`inner`; on a store whose aux namespace maps key [104] to value [49],
`get_aux` after `destroy` still returns the value, not not-found. -/
theorem destroy_keeps_aux_counterexample :
    get_aux (destroy (MemoryDB.mk 0 [] [([107], some [118])]
      [([104], some [49])]) []).fst [104] ≠ .ok none := by
  simp [destroy, get_aux, mapGet]

/-- Claim C2 (amended): after `destroy()` the main namespace is empty in
memory (every subsequent `get` returns not-found), but the aux namespace
is left untouched; calling `destroy()` again leaves the state (store and
filesystem) unchanged. -/
theorem destroy_clears_main_not_aux (db : MemoryDB) (fs : FS) :
    (∀ k, get (destroy db fs).fst k = .ok none) ∧
    (destroy db fs).fst.aux = db.aux ∧
    destroy (destroy db fs).fst (destroy db fs).snd = destroy db fs := by
  refine ⟨fun k => by simp [destroy, get, mapGet], rfl, ?_⟩
  simp [destroy, removeFile_idem]

/-- Claim C3: `get` returns the value written by the last batch entry
for the key, not-found after a trailing tombstone, not-found on a key
never written (fresh store), and never an error. -/
theorem get_put_batch_contract (db : MemoryDB) (kvs : KVBatch)
    (k v : Bytes) (t : Nat) :
    (lastWrite kvs k = some (some v) →
      get (put_batch db kvs).fst k = .ok (some v)) ∧
    (lastWrite kvs k = some none →
      get (put_batch db kvs).fst k = .ok none) ∧
    get (new t) k = .ok none ∧
    ∃ o, get db k = .ok o := by
  refine ⟨fun h => ?_, fun h => ?_, by simp [new, get, mapGet], ⟨_, rfl⟩⟩
  · simp [get, put_batch, applyBatch_mapGet, h]
  · simp [get, put_batch, applyBatch_mapGet, h]

theorem get_put_batch_contract_witness :
    get (put_batch (new 0) [([1], some [9]), ([1], some [7]), ([2], some [8]),
      ([2], none)]).fst [1] = .ok (some [7]) ∧
    get (put_batch (new 0) [([1], some [9]), ([1], some [7]), ([2], some [8]),
      ([2], none)]).fst [2] = .ok none :=
  ⟨(get_put_batch_contract (new 0) _ [1] [7] 0).1 (by decide),
   (get_put_batch_contract (new 0) _ [2] [7] 0).2.1 (by decide)⟩

/-- Claim C4: `put_batch` applies the batch in sequence order to the
main namespace with last-write-wins per key, a pair with absent value
leaves a tombstone slot (`some none`) rather than erasing the key, a
key not in the batch is untouched, and the call returns `Ok`. -/
theorem put_batch_last_write_wins (db : MemoryDB) (kvs : KVBatch)
    (k : Bytes) :
    (put_batch db kvs).snd = .ok () ∧
    (∀ v, lastWrite kvs k = some v →
      mapGet (put_batch db kvs).fst.inner k = some v) ∧
    (lastWrite kvs k = none →
      mapGet (put_batch db kvs).fst.inner k = mapGet db.inner k) := by
  refine ⟨rfl, fun v h => ?_, fun h => ?_⟩
  · simp [put_batch, applyBatch_mapGet, h]
  · simp [put_batch, applyBatch_mapGet, h]

theorem put_batch_last_write_wins_witness :
    mapGet (put_batch (new 0) [([1], some [2]), ([1], none)]).fst.inner [1]
      = some none ∧
    mapGet (put_batch (new 0) [([1], some [2]), ([1], none)]).fst.inner [3]
      = mapGet (new 0).inner [3] :=
  ⟨(put_batch_last_write_wins (new 0) _ [1]).2.1 none (by decide),
   (put_batch_last_write_wins (new 0) _ [3]).2.2 (by decide)⟩

/-- A concrete sorted store used to instantiate range-iteration
theorems: main namespace `{[1] ↦ [10], [2] ↦ tombstone, [3] ↦ [30]}`,
aux namespace `{[1] ↦ [5]}`. -/
def dbW : MemoryDB :=
  MemoryDB.mk 0 [] [([1], some [10]), ([2], none), ([3], some [30])]
    [([1], some [5])]

/-- Claim C5: for `lower <= upper`, ascending iteration over a
namespace yields exactly the non-tombstoned entries with
`lower <= k < upper`, in increasing key order, for `iter` (main) and
`iter_aux` (aux) alike; and no tombstoned key appears in any
range-iteration output of either order. -/
theorem iter_range_contract (db : MemoryDB) (lower upper : Bytes)
    (hs : SortedMap db.inner) (ha : SortedMap db.aux)
    (hlu : byteLe lower upper = true) :
    ∃ l la,
      iter db lower upper .Asc = some l ∧
      iter_aux db lower upper .Asc = some la ∧
      (∀ k v, (k, v) ∈ l ↔
        (mapGet db.inner k = some (some v) ∧ inRange lower upper k = true)) ∧
      l.Pairwise (fun p q => byteLt p.1 q.1 = true) ∧
      (∀ k v, (k, v) ∈ la ↔
        (mapGet db.aux k = some (some v) ∧ inRange lower upper k = true)) ∧
      la.Pairwise (fun p q => byteLt p.1 q.1 = true) ∧
      (∀ ord l2 k v, iter db lower upper ord = some l2 → (k, v) ∈ l2 →
        mapGet db.inner k ≠ some none) ∧
      (∀ ord l2 k v, iter_aux db lower upper ord = some l2 → (k, v) ∈ l2 →
        mapGet db.aux k ≠ some none) := by
  have hnl : byteLt upper lower = false := by simpa [byteLe] using hlu
  refine ⟨rangeList db.inner lower upper, rangeList db.aux lower upper,
    by simp [iter, hnl], by simp [iter_aux, hnl], ?_,
    rangeList_pairwise hs _ _, ?_, rangeList_pairwise ha _ _, ?_, ?_⟩
  · intro k v
    rw [mem_rangeList, mapGet_eq_some_iff hs]
  · intro k v
    rw [mem_rangeList, mapGet_eq_some_iff ha]
  · intro ord l2 k v hiter hmem
    have hmem2 : (k, v) ∈ rangeList db.inner lower upper := by
      cases ord with
      | Asc =>
        simp only [iter, hnl, Bool.false_eq_true, if_false, Option.some.injEq]
          at hiter
        exact hiter ▸ hmem
      | Desc =>
        simp only [iter, hnl, Bool.false_eq_true, if_false, Option.some.injEq]
          at hiter
        exact List.mem_reverse.mp (hiter ▸ hmem)
    have hget : mapGet db.inner k = some (some v) :=
      (mapGet_eq_some_iff hs).mpr (mem_rangeList.mp hmem2).1
    simp [hget]
  · intro ord l2 k v hiter hmem
    have hmem2 : (k, v) ∈ rangeList db.aux lower upper := by
      cases ord with
      | Asc =>
        simp only [iter_aux, hnl, Bool.false_eq_true, if_false,
          Option.some.injEq] at hiter
        exact hiter ▸ hmem
      | Desc =>
        simp only [iter_aux, hnl, Bool.false_eq_true, if_false,
          Option.some.injEq] at hiter
        exact List.mem_reverse.mp (hiter ▸ hmem)
    have hget : mapGet db.aux k = some (some v) :=
      (mapGet_eq_some_iff ha).mpr (mem_rangeList.mp hmem2).1
    simp [hget]

theorem iter_range_contract_witness :
    ∃ l la,
      iter dbW [1] [3] .Asc = some l ∧
      iter_aux dbW [1] [3] .Asc = some la ∧
      (∀ k v, (k, v) ∈ l ↔
        (mapGet dbW.inner k = some (some v) ∧ inRange [1] [3] k = true)) ∧
      l.Pairwise (fun p q => byteLt p.1 q.1 = true) ∧
      (∀ k v, (k, v) ∈ la ↔
        (mapGet dbW.aux k = some (some v) ∧ inRange [1] [3] k = true)) ∧
      la.Pairwise (fun p q => byteLt p.1 q.1 = true) ∧
      (∀ ord l2 k v, iter dbW [1] [3] ord = some l2 → (k, v) ∈ l2 →
        mapGet dbW.inner k ≠ some none) ∧
      (∀ ord l2 k v, iter_aux dbW [1] [3] ord = some l2 → (k, v) ∈ l2 →
        mapGet dbW.aux k ≠ some none) :=
  iter_range_contract dbW [1] [3] (by decide) (by decide) (by decide)

/-- Claim C6: for `lower <= upper`, descending iteration yields exactly
the reverse of the ascending iteration: same pairs, decreasing key
order. -/
theorem iter_desc_reverse_of_asc (db : MemoryDB) (lower upper : Bytes)
    (hs : SortedMap db.inner) (hlu : byteLe lower upper = true) :
    ∃ l, iter db lower upper .Asc = some l ∧
      iter db lower upper .Desc = some l.reverse ∧
      (∀ p, p ∈ l.reverse ↔ p ∈ l) ∧
      l.reverse.Pairwise (fun p q => byteLt q.1 p.1 = true) := by
  have hnl : byteLt upper lower = false := by simpa [byteLe] using hlu
  refine ⟨rangeList db.inner lower upper, by simp [iter, hnl],
    by simp [iter, hnl], fun p => List.mem_reverse, ?_⟩
  rw [List.pairwise_reverse]
  exact rangeList_pairwise hs lower upper

theorem iter_desc_reverse_of_asc_witness :
    ∃ l, iter dbW [1] [3] .Asc = some l ∧
      iter dbW [1] [3] .Desc = some l.reverse ∧
      (∀ p, p ∈ l.reverse ↔ p ∈ l) ∧
      l.reverse.Pairwise (fun p q => byteLt q.1 p.1 = true) :=
  iter_desc_reverse_of_asc dbW [1] [3] (by decide) (by decide)

/-- Claim C7: after a successful `snapshot(p)`, `open(p)` yields a store
whose `get`, `get_aux`, `iter` and `iter_aux` results all coincide with
the original store's; `snapshot` takes the store immutably (`&self`), so
the original state is untouched. -/
theorem snapshot_openDB_roundtrip (db : MemoryDB) (fs : FS) (p : Nat) :
    (snapshot db p fs true).snd = .ok () ∧
    ∃ db2, openDB p (snapshot db p fs true).fst = .ok db2 ∧
      (∀ k, get db2 k = get db k) ∧
      (∀ k, get_aux db2 k = get_aux db k) ∧
      (∀ l u o, iter db2 l u o = iter db l u o) ∧
      (∀ l u o, iter_aux db2 l u o = iter_aux db l u o) := by
  refine ⟨rfl, db, ?_, fun _ => rfl, fun _ => rfl, fun _ _ _ => rfl,
    fun _ _ _ => rfl⟩
  simp [openDB, snapshot, writeFile, fsLookup]

/-- Claim C8: the two namespaces are independent: `put_batch` leaves
`aux` unchanged, `commit` and `clean_aux` leave `inner` unchanged, and
writing the same key to both namespaces with different values yields
independent `get` / `get_aux` results. -/
theorem main_aux_independent (db : MemoryDB) (kvs : KVBatch) (flush : Bool)
    (fs : FS) (ioOk : Bool) (k v1 v2 : Bytes) :
    (put_batch db kvs).fst.aux = db.aux ∧
    (commit db kvs flush fs ioOk).fst.inner = db.inner ∧
    (clean_aux db).fst.inner = db.inner ∧
    get (commit (put_batch db [(k, some v1)]).fst [(k, some v2)] false fs
      ioOk).fst k = .ok (some v1) ∧
    get_aux (commit (put_batch db [(k, some v1)]).fst [(k, some v2)] false fs
      ioOk).fst k = .ok (some v2) := by
  refine ⟨rfl, ?_, rfl, ?_, ?_⟩
  · by_cases hf : flush <;> simp [commit, writeFile, hf]
  · simp [commit, put_batch, get, applyBatch, mapGet_insert_self]
  · simp [commit, put_batch, get_aux, applyBatch, mapGet_insert_self]

/-- Claim C9: when `lower > upper` byte-lexicographically, the
underlying `BTreeMap::range` call panics (modelled as `none`), for both
`iter` and `iter_aux` and either order; range iteration is total only
under the precondition `lower <= upper`. -/
theorem iter_inverted_bounds_panics (db : MemoryDB) (lower upper : Bytes)
    (order : IterOrder) (h : byteLt upper lower = true) :
    iter db lower upper order = none ∧
      iter_aux db lower upper order = none := by
  simp [iter, iter_aux, h]

theorem iter_inverted_bounds_panics_witness :
    iter (new 0) [1] [0] .Asc = none ∧ iter_aux (new 0) [1] [0] .Asc = none :=
  iter_inverted_bounds_panics (new 0) [1] [0] .Asc (by decide)

/-- Claim C10: `commit` inserts the aux batch before any I/O, so a
failing flush write returns an error while the aux entries remain
applied in memory (and `inner` and the filesystem are unchanged):
`commit` is not atomic on error. -/
theorem commit_applies_aux_before_io (db : MemoryDB) (auxKvs : KVBatch)
    (fs : FS) :
    (commit db auxKvs true fs false).fst.aux = applyBatch auxKvs db.aux ∧
    (commit db auxKvs true fs false).snd.snd = .error "write file failure" ∧
    (commit db auxKvs true fs false).snd.fst = fs ∧
    (commit db auxKvs true fs false).fst.inner = db.inner := by
  simp [commit, writeFile]

end MemDB
